import Mathlib

/-!
Shallow embedding of the smolpuff vector store (src/src/main.rs).

Modelling conventions:
* `f32` values are modelled as exact rationals `ℚ`; the `f32::sqrt` used by
  `cosine_similarity` is modelled by `ratSqrtModel` (the floor square root of
  numerator and denominator, mirroring `Rat.sqrt`), which agrees with the
  float square root on the only facts the program relies on: it is zero
  exactly on zero and positive on positive inputs.
* `serde_json::Value` metadata is opaque to the engine and is modelled as an
  opaque `String`.
* The record encoding produced by `serde_json::to_vec` is an external crate;
  it is modelled from the spec as a self-describing token sequence
  (see `encodeRecord` / `decodeRecord`).
* The `BinaryHeap<ScoredItem>` with the reversed `Ord` (a min-heap on score)
  is modelled as a score-ascending sorted list: `peek` is the head (a
  minimum-score element), `pop` drops it, `push` is ordered insertion.
* The slatedb scan iterator is modelled by the list of items it successfully
  yields followed by how it terminates (`ScanEnd`): either a clean end of
  range (`Ok(None)` in Rust) or a storage error from `next()`.
-/

namespace Smolpuff

/-- Opaque model of a `serde_json::Value` metadata document. -/
abbrev Metadata := String

/-- Model of `VectorRecord` (id, embedding vector, optional metadata). -/
structure VectorRecord where
  id : String
  vector : List ℚ
  metadata : Option Metadata
deriving DecidableEq

/-- Model of `QueryResult` (id, score, metadata). -/
structure QueryResult where
  id : String
  score : ℚ
  metadata : Option Metadata
deriving DecidableEq

/-- Model of `ScoredItem` (score, id, metadata), the heap element. -/
structure ScoredItem where
  score : ℚ
  id : String
  metadata : Option Metadata
deriving DecidableEq

/-- Model of `slatedb::Error` (opaque to this layer). -/
inductive DbErr where
  | scanFailed
deriving DecidableEq

/-- Model of `VectorStoreError`: a database error or a serde_json error. -/
inductive VectorStoreError where
  | dbError (e : DbErr)
  | serializationError
deriving DecidableEq

/-! ### Cosine similarity (`cosine_similarity` in main.rs) -/

/-- Model of `a.iter().zip(b.iter()).map(|(x, y)| x * y).sum()`. -/
def dotProduct (a b : List ℚ) : ℚ := ((a.zip b).map fun p => p.1 * p.2).sum

/-- Sum of squares of the components, `a.iter().map(|x| x * x).sum()`. -/
def sumSq (a : List ℚ) : ℚ := (a.map fun x => x * x).sum

/-- Floor square root of a natural number (largest `m` with `m * m ≤ n`),
written with structural recursion so that it evaluates in the kernel. -/
def natSqrtModel (n : ℕ) : ℕ := ((List.range (n + 1)).filter fun m => m * m ≤ n).length - 1

/-- Model of `f32::sqrt` on exact rationals: floor square roots of numerator
and denominator, as in `Rat.sqrt`. Zero exactly on zero and positive on
positive inputs, the only facts about `sqrt` the program relies on. -/
def ratSqrtModel (q : ℚ) : ℚ := mkRat (natSqrtModel q.num.toNat) (natSqrtModel q.den)

/-- Euclidean magnitude: the square root of the sum of squares. -/
def magnitude (a : List ℚ) : ℚ := ratSqrtModel (sumSq a)

/-- Model of `cosine_similarity` in main.rs: zero on length mismatch or empty
input, zero when either magnitude is zero, otherwise the dot product divided
by the product of the magnitudes. -/
def cosine_similarity (a b : List ℚ) : ℚ :=
  if a.length ≠ b.length ∨ a.isEmpty then 0
  else if magnitude a = 0 ∨ magnitude b = 0 then 0
  else dotProduct a b / (magnitude a * magnitude b)

/-! ### The bounded top-k selection structure -/

/-- Score order on heap elements: the reversed `Ord for ScoredItem` turns
`BinaryHeap` into a min-heap on `score`; the sorted-list model keeps elements
ascending by this relation. -/
def sLE (a b : ScoredItem) : Prop := a.score ≤ b.score

instance : DecidableRel sLE := fun a b => inferInstanceAs (Decidable (a.score ≤ b.score))

instance : IsTotal ScoredItem sLE := ⟨fun a b => le_total a.score b.score⟩

instance : IsTrans ScoredItem sLE := ⟨fun _ _ _ h1 h2 => le_trans h1 h2⟩

/-- Model of `heap.push`: ordered insertion keeping the list score-ascending. -/
def heapPush (h : List ScoredItem) (it : ScoredItem) : List ScoredItem :=
  List.orderedInsert sLE it h

/-- Model of `heap.peek`: a minimum-score element (head of the sorted list). -/
def heapPeek (h : List ScoredItem) : Option ScoredItem := h.head?

/-- Model of `heap.pop` (discarding the popped value): drop the minimum. -/
def heapPop (h : List ScoredItem) : List ScoredItem := h.tail

/-- One iteration of the selection maintenance in `VectorStore::query`:
if fewer than `k` items are held, push unconditionally; otherwise compare with
the weakest held item and evict-and-insert only on a strictly greater score. -/
def heapStep (k : ℕ) (h : List ScoredItem) (it : ScoredItem) : List ScoredItem :=
  if h.length < k then heapPush h it
  else
    match heapPeek h with
    | none => h
    | some m => if m.score < it.score then heapPush (heapPop h) it else h

/-! ### Record encoding

Modelled from the spec: the `serde_json` encoding of a `VectorRecord` is an
external crate, specified only as "a self-describing byte encoding (must
round-trip exactly)"; it is modelled as a token sequence with one token per
JSON scalar. -/

/-- One token of the modelled self-describing encoding. -/
inductive Tok where
  | str (s : String)
  | num (q : ℚ)
  | arrOpen
  | arrClose
  | nullTag
deriving DecidableEq

/-- Modelled from the spec: serialization of a `VectorRecord`
(`serde_json::to_vec` in `VectorStore::add`). -/
def encodeRecord (r : VectorRecord) : List Tok :=
  Tok.str r.id :: Tok.arrOpen :: r.vector.map Tok.num ++ [Tok.arrClose] ++
    (match r.metadata with
     | none => [Tok.nullTag]
     | some m => [Tok.str m])

/-- Decode a number list up to the closing bracket, returning the remainder. -/
def decodeVec : List Tok → Option (List ℚ × List Tok)
  | Tok.arrClose :: rest => some ([], rest)
  | Tok.num q :: rest =>
    match decodeVec rest with
    | some (v, rem) => some (q :: v, rem)
    | none => none
  | _ => none

/-- Modelled from the spec: deserialization of a `VectorRecord`
(`serde_json::from_slice` in `VectorStore::query`); `none` models a
malformed record. -/
def decodeRecord (ts : List Tok) : Option VectorRecord :=
  match ts with
  | Tok.str i :: Tok.arrOpen :: rest =>
    match decodeVec rest with
    | some (v, [Tok.nullTag]) => some ⟨i, v, none⟩
    | some (v, [Tok.str m]) => some ⟨i, v, some m⟩
    | _ => none
  | _ => none

/-- Decode every value of a scan; `none` when any record is malformed. -/
def decodeAll : List (List Tok) → Option (List VectorRecord)
  | [] => some []
  | v :: vs =>
    match decodeRecord v, decodeAll vs with
    | some r, some rs => some (r :: rs)
    | _, _ => none

/-! ### The query path (`VectorStore::query` in main.rs) -/

/-- How the scan iterator terminates after its yielded items: a clean end of
range (`Ok(None)`) or a storage error returned by `next()` (`Err(e)`). -/
inductive ScanEnd where
  | done
  | storageError (e : DbErr)
deriving DecidableEq

/-- The observable behavior of one scan iterator: the values it yields in
order, then how it terminates. -/
structure ScanStream where
  items : List (List Tok)
  fin : ScanEnd
deriving DecidableEq

/-- The `ScoredItem` built for a record in the scan loop: its cosine
similarity against the query vector, with its id and metadata. -/
def scoredOf (qv : List ℚ) (r : VectorRecord) : ScoredItem :=
  ⟨cosine_similarity qv r.vector, r.id, r.metadata⟩

/-- The scan loop of `VectorStore::query`: decode each yielded value (a
malformed record aborts the query via `?`), score it, and maintain the
bounded selection. -/
def scanLoop (qv : List ℚ) (k : ℕ) :
    List (List Tok) → List ScoredItem → Except VectorStoreError (List ScoredItem)
  | [], h => .ok h
  | v :: vs, h =>
    match decodeRecord v with
    | none => .error .serializationError
    | some r => scanLoop qv k vs (heapStep k h (scoredOf qv r))

/-- Descending-score order used by the final `sort_by` comparator
(`b.score.partial_cmp(&a.score)`). -/
def descBy (a b : QueryResult) : Prop := b.score ≤ a.score

instance : DecidableRel descBy := fun a b => inferInstanceAs (Decidable (b.score ≤ a.score))

instance : IsTotal QueryResult descBy := ⟨fun a b => le_total b.score a.score⟩

instance : IsTrans QueryResult descBy := ⟨fun _ _ _ h1 h2 => le_trans h2 h1⟩

/-- Conversion of a drained heap element into a `QueryResult`. -/
def toQueryResult (it : ScoredItem) : QueryResult := ⟨it.id, it.score, it.metadata⟩

/-- The inverse view of a returned result as a scored item. -/
def rToScored (r : QueryResult) : ScoredItem := ⟨r.score, r.id, r.metadata⟩

/-- Drain the selection and sort descending by score (stable sort, modelling
`results.sort_by(...)`). -/
def finalize (h : List ScoredItem) : List QueryResult :=
  List.insertionSort descBy (h.map toQueryResult)

/-- Model of `VectorStore::query`. The argument is the outcome of
`self.db.scan(..)`: opening the scan may itself fail (propagated by `?`);
otherwise the loop `while let Ok(Some(item)) = iter.next().await` consumes
the yielded items and exits the loop on the terminator — note it exits
silently on `ScanEnd.storageError` exactly as on `ScanEnd.done`, because the
`while let` pattern match discards the `Err` case. -/
def query (qv : List ℚ) (k : ℕ) (scan : Except DbErr ScanStream) :
    Except VectorStoreError (List QueryResult) :=
  match scan with
  | .error e => .error (.dbError e)
  | .ok s =>
    match scanLoop qv k s.items [] with
    | .error e => .error e
    | .ok h => .ok (finalize h)

/-! ### The write path (`VectorStore::add` in main.rs) -/

/-- UTF-8 bytes of the namespace marker `"vec:"` (the scan lower bound). -/
def vecLow : List ℕ := [118, 101, 99, 58]

/-- UTF-8 bytes of `"vec;"`, the scan upper bound (`;` follows `:` in ASCII). -/
def vecHigh : List ℕ := [118, 101, 99, 59]

/-- Lexicographic strict order on byte strings. -/
def bytesLt : List ℕ → List ℕ → Bool
  | [], [] => false
  | [], _ :: _ => true
  | _ :: _, [] => false
  | a :: as, b :: bs => a < b || (a == b && bytesLt as bs)

/-- Lexicographic order on byte strings. -/
def bytesLe : List ℕ → List ℕ → Bool
  | [], _ => true
  | _ :: _, [] => false
  | a :: as, b :: bs => a < b || (a == b && bytesLe as bs)

/-- Membership in the half-open scan range `"vec:" .. "vec;"`. -/
def inScanRange (s : List ℕ) : Bool := bytesLe vecLow s && bytesLt s vecHigh

/-- The key written by `VectorStore::add`: `format!("vec:{}", id)` as bytes. -/
def addKey (idBytes : List ℕ) : List ℕ := vecLow ++ idBytes

/-- The record constructed by `VectorStore::add` from its arguments. -/
def addRecord (id : String) (vector : List ℚ) (metadata : Option Metadata) :
    VectorRecord := ⟨id, vector, metadata⟩

/-- The pure selection state after scanning a list of records. -/
def heapRun (qv : List ℚ) (k : ℕ) (rs : List VectorRecord) : List ScoredItem :=
  rs.foldl (fun h r => heapStep k h (scoredOf qv r)) []

/-- The scored view of a record list against a query vector. -/
def scoredList (qv : List ℚ) (rs : List VectorRecord) : List ScoredItem :=
  rs.map (scoredOf qv)

/-- The bounded-selection invariant: the structure is sorted ascending by
score, holds a sub-multiset of the items seen so far, holds exactly
`min k (number seen)` of them, and every score it left out is at most every
score it holds. -/
def TopK (k : ℕ) (seen : Multiset ScoredItem) (h : List ScoredItem) : Prop :=
  List.Sorted sLE h ∧ (↑h : Multiset ScoredItem) ≤ seen ∧
    h.length = min k (Multiset.card seen) ∧
    ∀ y ∈ seen - (↑h : Multiset ScoredItem), ∀ x ∈ h, y.score ≤ x.score

/-- A sample record used to instantiate theorems on concrete inputs. -/
def wRec1 : VectorRecord := ⟨"a", [1], none⟩

/-- A second sample record (zero vector, hence degenerate score 0). -/
def wRec2 : VectorRecord := ⟨"b", [0], none⟩

/-- A sample two-record store content, already encoded. -/
def wStore : List (List Tok) := [encodeRecord wRec1, encodeRecord wRec2]

/-! ### Helper lemmas about the encoding -/

lemma decodeVec_encode (v : List ℚ) (rest : List Tok) :
    decodeVec (v.map Tok.num ++ Tok.arrClose :: rest) = some (v, rest) := by
  induction v with
  | nil => rfl
  | cons q v ih => simp [decodeVec, ih]

lemma decodeRecord_cons (i : String) (rest : List Tok) :
    decodeRecord (Tok.str i :: Tok.arrOpen :: rest) =
      (match decodeVec rest with
       | some (v, [Tok.nullTag]) => some ⟨i, v, none⟩
       | some (v, [Tok.str m]) => some ⟨i, v, some m⟩
       | _ => none) := rfl

lemma decodeRecord_encode (r : VectorRecord) :
    decodeRecord (encodeRecord r) = some r := by
  obtain ⟨i, v, m⟩ := r
  cases m with
  | none =>
    show decodeRecord (Tok.str i :: Tok.arrOpen :: (v.map Tok.num ++ [Tok.arrClose] ++ [Tok.nullTag])) = _
    rw [decodeRecord_cons, List.append_assoc, List.singleton_append, decodeVec_encode]
  | some s =>
    show decodeRecord (Tok.str i :: Tok.arrOpen :: (v.map Tok.num ++ [Tok.arrClose] ++ [Tok.str s])) = _
    rw [decodeRecord_cons, List.append_assoc, List.singleton_append, decodeVec_encode]

lemma decodeAll_encode (rs : List VectorRecord) :
    decodeAll (rs.map encodeRecord) = some rs := by
  induction rs with
  | nil => rfl
  | cons r rs ih => simp [decodeAll, decodeRecord_encode, ih]

/-! ### Helper lemmas about the scan loop -/

lemma scanLoop_decodeAll (qv : List ℚ) (k : ℕ) :
    ∀ (vs : List (List Tok)) (records : List VectorRecord) (h : List ScoredItem),
      decodeAll vs = some records →
      scanLoop qv k vs h =
        .ok (records.foldl (fun h r => heapStep k h (scoredOf qv r)) h) := by
  intro vs
  induction vs with
  | nil =>
    intro records h hdec
    simp only [decodeAll, Option.some.injEq] at hdec
    subst hdec
    rfl
  | cons v vs ih =>
    intro records h hdec
    simp only [decodeAll] at hdec
    cases hv : decodeRecord v with
    | none => rw [hv] at hdec; exact absurd hdec (by simp)
    | some r =>
      rw [hv] at hdec
      cases hvs : decodeAll vs with
      | none => rw [hvs] at hdec; exact absurd hdec (by simp)
      | some rs =>
        rw [hvs] at hdec
        simp only [Option.some.injEq] at hdec
        subst hdec
        simp only [scanLoop, hv]
        exact ih rs _ hvs

lemma scanLoop_ok_of_decodeAll (qv : List ℚ) (k : ℕ) (vs : List (List Tok))
    (records : List VectorRecord) (hdec : decodeAll vs = some records) :
    scanLoop qv k vs [] = .ok (heapRun qv k records) :=
  scanLoop_decodeAll qv k vs records [] hdec

/-! ### Helper lemmas about `finalize` -/

lemma rToScored_toQueryResult (it : ScoredItem) : rToScored (toQueryResult it) = it := rfl

lemma finalize_perm (h : List ScoredItem) : ((finalize h).map rToScored).Perm h := by
  have h1 : (finalize h).Perm (h.map toQueryResult) := List.perm_insertionSort descBy _
  have h2 := h1.map rToScored
  rw [List.map_map] at h2
  have h3 : (rToScored ∘ toQueryResult) = id := funext fun it => rToScored_toQueryResult it
  rw [h3, List.map_id] at h2
  exact h2

lemma finalize_length (h : List ScoredItem) : (finalize h).length = h.length := by
  have := (finalize_perm h).length_eq
  simpa using this

lemma finalize_sorted (h : List ScoredItem) : List.Sorted descBy (finalize h) :=
  List.sorted_insertionSort descBy _

/-! ### The top-k selection invariant -/

lemma sorted_cons_min {m : ScoredItem} {t : List ScoredItem}
    (hs : List.Sorted sLE (m :: t)) : ∀ x ∈ m :: t, m.score ≤ x.score := by
  intro x hx
  rcases List.mem_cons.mp hx with rfl | hx
  · exact le_refl _
  · exact (List.sorted_cons.mp hs).1 x hx

lemma heapPush_coe (h : List ScoredItem) (it : ScoredItem) :
    ((heapPush h it : List ScoredItem) : Multiset ScoredItem) = it ::ₘ ↑h := by
  rw [Multiset.cons_coe]
  exact Multiset.coe_eq_coe.mpr (List.perm_orderedInsert sLE it h)

lemma heapPush_length (h : List ScoredItem) (it : ScoredItem) :
    (heapPush h it).length = h.length + 1 := List.orderedInsert_length sLE h it

lemma heapPush_sorted {h : List ScoredItem} (hs : List.Sorted sLE h) (it : ScoredItem) :
    List.Sorted sLE (heapPush h it) := List.Sorted.orderedInsert it h hs

lemma mem_cons_sub {y a : ScoredItem} {s t : Multiset ScoredItem}
    (hy : y ∈ (a ::ₘ s) - t) : y = a ∨ y ∈ s - t := by
  by_cases hya : y = a
  · exact Or.inl hya
  · right
    rw [← Multiset.count_pos, Multiset.count_sub] at hy ⊢
    rwa [Multiset.count_cons_of_ne hya] at hy

lemma cons_sub_cons_eq (a : ScoredItem) (s t : Multiset ScoredItem) :
    (a ::ₘ s) - (a ::ₘ t) = s - t := by
  rw [Multiset.sub_cons, Multiset.erase_cons_head]

lemma sub_tail_score_le {S : Multiset ScoredItem} {m : ScoredItem} {t : List ScoredItem}
    (hle : ((m :: t : List ScoredItem) : Multiset ScoredItem) ≤ S)
    (hbound : ∀ y ∈ S - ((m :: t : List ScoredItem) : Multiset ScoredItem),
      ∀ x ∈ m :: t, y.score ≤ x.score) :
    ∀ y ∈ S - (↑t : Multiset ScoredItem), y.score ≤ m.score := by
  intro y hy
  by_cases hym : y = m
  · subst hym; exact le_refl _
  · have hmem : y ∈ S - ((m :: t : List ScoredItem) : Multiset ScoredItem) := by
      rw [← Multiset.count_pos, Multiset.count_sub] at hy ⊢
      rw [← Multiset.cons_coe, Multiset.count_cons_of_ne hym]
      exact hy
    exact hbound y hmem m (List.mem_cons_self m t)

/-- One scan step preserves the top-k invariant. -/
lemma topK_step {k : ℕ} {S : Multiset ScoredItem} {h : List ScoredItem}
    (it : ScoredItem) (H : TopK k S h) : TopK k (it ::ₘ S) (heapStep k h it) := by
  obtain ⟨hsort, hle, hlen, hbound⟩ := H
  have hcard : Multiset.card (↑h : Multiset ScoredItem) = h.length := Multiset.coe_card h
  by_cases hlt : h.length < k
  · have hstep : heapStep k h it = heapPush h it := by simp [heapStep, hlt]
    rw [hstep]
    have hScard : Multiset.card S = h.length := by omega
    have hfull : (↑h : Multiset ScoredItem) = S :=
      Multiset.eq_of_le_of_card_le hle (by rw [hcard, hScard])
    refine ⟨heapPush_sorted hsort it, ?_, ?_, ?_⟩
    · rw [heapPush_coe]; exact Multiset.cons_le_cons it hle
    · rw [heapPush_length, Multiset.card_cons]; omega
    · intro y hy x hx
      rw [heapPush_coe, hfull, cons_sub_cons_eq, tsub_self] at hy
      exact absurd hy (Multiset.not_mem_zero y)
  · cases h with
    | nil =>
      have hk : k = 0 := by simp at hlt; omega
      have hstep : heapStep k [] it = [] := by simp [heapStep, hk, heapPeek]
      rw [hstep]
      refine ⟨List.sorted_nil, Multiset.zero_le _, by simp [hk], ?_⟩
      intro y _ x hx
      exact absurd hx (List.not_mem_nil x)
    | cons m t =>
      have hk : (m :: t).length = k := by omega
      have hSk : k ≤ Multiset.card S := by omega
      by_cases hgt : m.score < it.score
      · have hstep : heapStep k (m :: t) it = heapPush t it := by
          unfold heapStep
          rw [if_neg hlt]
          simp [heapPeek, heapPop, hgt]
        rw [hstep]
        have htsort : List.Sorted sLE t := (List.sorted_cons.mp hsort).2
        have htle : (↑t : Multiset ScoredItem) ≤ S := by
          refine le_trans (Multiset.le_cons_self (↑t) m) ?_
          rwa [Multiset.cons_coe]
        have hboundm := sub_tail_score_le hle hbound
        refine ⟨heapPush_sorted htsort it, ?_, ?_, ?_⟩
        · rw [heapPush_coe]; exact Multiset.cons_le_cons it htle
        · rw [heapPush_length, Multiset.card_cons]
          simp only [List.length_cons] at hk
          omega
        · intro y hy x hx
          have hy' : y ∈ (it ::ₘ S) - (it ::ₘ (↑t : Multiset ScoredItem)) := by
            rwa [heapPush_coe] at hy
          rw [cons_sub_cons_eq] at hy'
          have hym := hboundm y hy'
          rcases (List.mem_orderedInsert sLE).mp hx with rfl | hx'
          · exact le_trans hym (le_of_lt hgt)
          · exact le_trans hym
              (sorted_cons_min hsort x (List.mem_cons_of_mem m hx'))
      · have hstep : heapStep k (m :: t) it = m :: t := by
          unfold heapStep
          rw [if_neg hlt]
          simp [heapPeek, hgt]
        rw [hstep]
        refine ⟨hsort, le_trans hle (Multiset.le_cons_self S it), ?_, ?_⟩
        · rw [Multiset.card_cons]
          simp only [List.length_cons] at hk ⊢
          omega
        · intro y hy x hx
          rcases mem_cons_sub hy with rfl | hy'
          · exact le_trans (not_lt.mp hgt) (sorted_cons_min hsort x hx)
          · exact hbound y hy' x hx

lemma topK_nil (k : ℕ) : TopK k 0 [] := by
  refine ⟨List.sorted_nil, le_refl _, by simp, ?_⟩
  intro y _ x hx
  exact absurd hx (List.not_mem_nil x)

lemma topK_foldl (qv : List ℚ) (k : ℕ) :
    ∀ (rs : List VectorRecord) (S : Multiset ScoredItem) (h : List ScoredItem),
      TopK k S h →
      TopK k (S + ↑(scoredList qv rs))
        (rs.foldl (fun h r => heapStep k h (scoredOf qv r)) h)
  | [], S, h, H => by simpa [scoredList] using H
  | r :: rs, S, h, H => by
    have H2 := topK_foldl qv k rs _ _ (topK_step (scoredOf qv r) H)
    simp only [List.foldl_cons]
    simp only [scoredList, List.map_cons] at H2 ⊢
    rwa [show ((scoredOf qv r ::ₘ S) + ↑(List.map (scoredOf qv) rs) : Multiset ScoredItem)
        = S + ↑(scoredOf qv r :: List.map (scoredOf qv) rs) from by
      rw [← Multiset.cons_coe, Multiset.cons_add, Multiset.add_cons]] at H2

/-- The heap state after scanning any record list satisfies the invariant. -/
lemma topK_heapRun (qv : List ℚ) (k : ℕ) (rs : List VectorRecord) :
    TopK k ↑(scoredList qv rs) (heapRun qv k rs) := by
  have H := topK_foldl qv k rs 0 [] (topK_nil k)
  rw [zero_add] at H
  exact H

/-- Elimination principle for a successful query over an opened scan. -/
lemma query_ok_elim {qv : List ℚ} {k : ℕ} {s : ScanStream} {rs : List QueryResult}
    (h : query qv k (.ok s) = .ok rs) :
    ∃ hp, scanLoop qv k s.items [] = .ok hp ∧ rs = finalize hp := by
  have h' : (match scanLoop qv k s.items [] with
      | Except.error e => (Except.error e : Except VectorStoreError (List QueryResult))
      | Except.ok hp => Except.ok (finalize hp)) = Except.ok rs := h
  cases hl : scanLoop qv k s.items [] with
  | error e => rw [hl] at h'; exact absurd h' (by simp)
  | ok hp =>
    rw [hl] at h'
    simp only [Except.ok.injEq] at h'
    exact ⟨hp, rfl, h'.symm⟩

/-! ### Helper lemmas about error behavior and the scan range -/

lemma scanLoop_error_of_bad (qv : List ℚ) (k : ℕ) :
    ∀ (vs : List (List Tok)) (v : List Tok), v ∈ vs → decodeRecord v = none →
      ∀ h, scanLoop qv k vs h = .error .serializationError
  | [], v, hv, _, _ => absurd hv (List.not_mem_nil v)
  | u :: us, v, hv, hbad, h => by
    rcases List.mem_cons.mp hv with rfl | hv'
    · simp [scanLoop, hbad]
    · cases hu : decodeRecord u with
      | none => simp [scanLoop, hu]
      | some r =>
        simp only [scanLoop, hu]
        exact scanLoop_error_of_bad qv k us v hv' hbad _

lemma bytesLt_nil_right (s : List ℕ) : bytesLt s [] = false := by
  cases s <;> rfl

lemma isPrefixOf_append_self : ∀ l s : List ℕ, l.isPrefixOf (l ++ s) = true
  | [], s => by cases s <;> rfl
  | a :: l, s => by simp [List.isPrefixOf, isPrefixOf_append_self l s]

lemma inScanRange_iff (s : List ℕ) :
    inScanRange s = true ↔ vecLow.isPrefixOf s = true := by
  rcases s with _ | ⟨b0, _ | ⟨b1, _ | ⟨b2, _ | ⟨b3, rest⟩⟩⟩⟩ <;>
    simp [inScanRange, vecLow, vecHigh, bytesLe, bytesLt, List.isPrefixOf,
      bytesLt_nil_right] <;>
    omega

/-! ### Claim theorems -/

/-- C5: `cosine_similarity` returns exactly 0 whenever the two vectors have
different lengths or either is empty, returns exactly 0 whenever either
vector's magnitude is exactly zero, and otherwise returns the dot product
divided by the product of the magnitudes; degenerate inputs are scored 0,
never raised as errors (the function is total). -/
theorem cosine_similarity_spec (a b : List ℚ) :
    (a.length ≠ b.length ∨ a = [] ∨ b = [] → cosine_similarity a b = 0) ∧
    (magnitude a = 0 ∨ magnitude b = 0 → cosine_similarity a b = 0) ∧
    (a.length = b.length → a ≠ [] → magnitude a ≠ 0 → magnitude b ≠ 0 →
      cosine_similarity a b = dotProduct a b / (magnitude a * magnitude b)) := by
  refine ⟨?_, ?_, ?_⟩
  · intro hdeg
    have hc : a.length ≠ b.length ∨ a.isEmpty = true := by
      rcases hdeg with hne | rfl | rfl
      · exact Or.inl hne
      · exact Or.inr rfl
      · rcases a with _ | ⟨x, a⟩
        · exact Or.inr rfl
        · exact Or.inl (by simp)
    unfold cosine_similarity
    rw [if_pos hc]
  · intro hmag
    unfold cosine_similarity
    by_cases hc : a.length ≠ b.length ∨ a.isEmpty = true
    · rw [if_pos hc]
    · rw [if_neg hc, if_pos hmag]
  · intro hlen hne hma hmb
    have hc : ¬(a.length ≠ b.length ∨ a.isEmpty = true) := by
      rintro (h | h)
      · exact h hlen
      · exact hne (List.isEmpty_iff.mp h)
    have hm : ¬(magnitude a = 0 ∨ magnitude b = 0) := by
      rintro (h | h)
      · exact hma h
      · exact hmb h
    unfold cosine_similarity
    rw [if_neg hc, if_neg hm]

unseal Rat.mul Rat.add Rat.inv in
theorem cosine_similarity_spec_witness :
    cosine_similarity [1] [1, 2] = 0 ∧ cosine_similarity [0] [1] = 0 ∧
    cosine_similarity [1] [2] = dotProduct [1] [2] / (magnitude [1] * magnitude [2]) :=
  ⟨(cosine_similarity_spec [1] [1, 2]).1 (by decide),
   (cosine_similarity_spec [0] [1]).2.1 (by decide),
   (cosine_similarity_spec [1] [2]).2.2 (by decide) (by decide) (by decide) (by decide)⟩

/-- C9: for every identifier, vector and optional metadata accepted by add,
the serialized encoding of the constructed record round-trips exactly —
decoding reproduces identical id, vector values and metadata. -/
theorem add_roundtrip (id : String) (vector : List ℚ) (metadata : Option Metadata) :
    decodeRecord (encodeRecord (addRecord id vector metadata)) =
      some (addRecord id vector metadata) :=
  decodeRecord_encode _

/-- C8: a byte string lies in the scan range `["vec:", "vec;")` exactly when
it starts with the namespace marker `"vec:"`, and every key written by add
(the marker followed by the identifier bytes) lies in the range. -/
theorem scan_range_exact :
    (∀ s : List ℕ, inScanRange s = true ↔ vecLow.isPrefixOf s = true) ∧
    (∀ idBytes : List ℕ, inScanRange (addKey idBytes) = true) := by
  refine ⟨inScanRange_iff, fun idBytes => ?_⟩
  rw [inScanRange_iff, addKey]
  exact isPrefixOf_append_self vecLow idBytes

unseal Rat.mul Rat.add Rat.inv in
/-- C2 is refuted by the code: a storage error raised by the scan iterator's
next() is invisible to `query` — the `while let Ok(Some(..))` loop exits
silently on it, and the query returns a successful (possibly partial) result
built from the records yielded before the failure instead of propagating the
error. The second conjunct evaluates the failing run concretely. -/
theorem query_swallows_scan_error :
    (∀ (qv : List ℚ) (k : ℕ) (items : List (List Tok)) (e : DbErr),
      query qv k (.ok ⟨items, .storageError e⟩) = query qv k (.ok ⟨items, .done⟩)) ∧
    query [1] 1 (.ok ⟨[encodeRecord ⟨"a", [1], none⟩], .storageError DbErr.scanFailed⟩)
      = .ok [⟨"a", 1, none⟩] :=
  ⟨fun _ _ _ _ => rfl, rfl⟩

/-- C7: a malformed record anywhere in the scan fails the whole query with
the decoding error — no result sequence is returned and no partial results
are surfaced. -/
theorem query_decode_failure (qv : List ℚ) (k : ℕ) (vs : List (List Tok))
    (fin : ScanEnd) (v : List Tok) (hv : v ∈ vs) (hbad : decodeRecord v = none) :
    query qv k (.ok ⟨vs, fin⟩) = .error VectorStoreError.serializationError := by
  have h := scanLoop_error_of_bad qv k vs v hv hbad []
  show (match scanLoop qv k vs [] with
      | Except.error e => (Except.error e : Except VectorStoreError (List QueryResult))
      | Except.ok hp => Except.ok (finalize hp)) = _
  rw [h]

theorem query_decode_failure_witness :
    query [1] 1 (.ok ⟨[[Tok.arrOpen]], .done⟩)
      = .error VectorStoreError.serializationError :=
  query_decode_failure [1] 1 [[Tok.arrOpen]] .done [Tok.arrOpen]
    (List.mem_singleton.mpr rfl) rfl

/-- C3: a successful query over a store of n decodable records returns
exactly `min k n` results; in particular `k = 0` returns the empty
sequence. -/
theorem query_length (qv : List ℚ) (k : ℕ) (vs : List (List Tok))
    (records : List VectorRecord) (rs : List QueryResult)
    (hdec : decodeAll vs = some records)
    (hq : query qv k (.ok ⟨vs, .done⟩) = .ok rs) :
    rs.length = min k records.length ∧ (k = 0 → rs = []) := by
  obtain ⟨hp, hloop, hrs⟩ := query_ok_elim hq
  rw [scanLoop_ok_of_decodeAll qv k vs records hdec] at hloop
  injection hloop with hhp
  have hlen := (topK_heapRun qv k records).2.2.1
  have hcard : Multiset.card (↑(scoredList qv records) : Multiset ScoredItem)
      = records.length := by
    rw [Multiset.coe_card]
    simp [scoredList]
  rw [hcard] at hlen
  have hlength : rs.length = min k records.length := by
    rw [hrs, ← hhp, finalize_length]
    exact hlen
  refine ⟨hlength, fun hk => ?_⟩
  subst hk
  have h0 : rs.length = 0 := by omega
  exact List.length_eq_zero.mp h0

unseal Rat.mul Rat.add Rat.inv in
theorem query_length_witness :
    decodeAll wStore = some [wRec1, wRec2] ∧
    query [1] 1 (.ok ⟨wStore, .done⟩) = .ok [⟨"a", 1, none⟩] ∧
    ([(⟨"a", 1, none⟩ : QueryResult)].length = min 1 [wRec1, wRec2].length ∧
      (1 = 0 → [(⟨"a", 1, none⟩ : QueryResult)] = [])) :=
  ⟨rfl, rfl, query_length [1] 1 wStore [wRec1, wRec2] [⟨"a", 1, none⟩] rfl rfl⟩

/-- C4: every successfully returned result sequence is sorted by descending
score — each adjacent pair satisfies `results[i].score >= results[i+1].score`. -/
theorem query_sorted (qv : List ℚ) (k : ℕ) (s : ScanStream) (rs : List QueryResult)
    (hq : query qv k (.ok s) = .ok rs) (i : ℕ) (hi : i + 1 < rs.length) :
    rs[i + 1].score ≤ rs[i].score := by
  obtain ⟨hp, _, hrs⟩ := query_ok_elim hq
  subst hrs
  have hsorted := finalize_sorted hp
  have hrel := List.Sorted.rel_get_of_lt hsorted
    (a := ⟨i, by omega⟩) (b := ⟨i + 1, hi⟩) (Fin.mk_lt_mk.mpr (Nat.lt_succ_self i))
  simpa [descBy, List.get_eq_getElem] using hrel

unseal Rat.mul Rat.add Rat.inv in
theorem query_sorted_witness :
    query [1] 2 (.ok ⟨wStore, .done⟩) = .ok [⟨"a", 1, none⟩, ⟨"b", 0, none⟩] ∧
    ([(⟨"a", 1, none⟩ : QueryResult), ⟨"b", 0, none⟩][1]).score
      ≤ ([(⟨"a", 1, none⟩ : QueryResult), ⟨"b", 0, none⟩][0]).score :=
  ⟨rfl, query_sorted [1] 2 ⟨wStore, .done⟩ [⟨"a", 1, none⟩, ⟨"b", 0, none⟩] rfl 0
    (by decide)⟩

/-- C6: with the selection sorted ascending (so its head is the current
weakest) and holding at least k items, a new item evicts the weakest and is
inserted exactly when its score strictly exceeds the weakest held score; a
tie or lower leaves the selection unchanged, so the first-seen record wins
at the boundary; below capacity insertion is unconditional. -/
theorem heapStep_policy (k : ℕ) (h : List ScoredItem) (it : ScoredItem)
    (hs : List.Sorted sLE h) :
    (h.length < k →
      ((heapStep k h it : List ScoredItem) : Multiset ScoredItem) = it ::ₘ ↑h) ∧
    (∀ m t, h = m :: t → ¬h.length < k →
      (∀ x ∈ h, m.score ≤ x.score) ∧
      (m.score < it.score →
        ((heapStep k h it : List ScoredItem) : Multiset ScoredItem) = it ::ₘ ↑t ∧
        (heapStep k h it).length = h.length) ∧
      (¬m.score < it.score → heapStep k h it = h)) := by
  constructor
  · intro hlt
    have hstep : heapStep k h it = heapPush h it := by simp [heapStep, hlt]
    rw [hstep, heapPush_coe]
  · rintro m t rfl hge
    refine ⟨sorted_cons_min hs, ?_, ?_⟩
    · intro hgt
      have hstep : heapStep k (m :: t) it = heapPush t it := by
        unfold heapStep
        rw [if_neg hge]
        simp [heapPeek, heapPop, hgt]
      rw [hstep, heapPush_coe, heapPush_length]
      exact ⟨rfl, by simp⟩
    · intro hngt
      unfold heapStep
      rw [if_neg hge]
      simp [heapPeek, hngt]

theorem heapStep_policy_witness :
    ((heapStep 2 [⟨0, "a", none⟩] ⟨1, "b", none⟩ : List ScoredItem) : Multiset ScoredItem)
      = ⟨1, "b", none⟩ ::ₘ ↑([⟨0, "a", none⟩] : List ScoredItem) ∧
    ((heapStep 1 [⟨0, "a", none⟩] ⟨1, "b", none⟩ : List ScoredItem) : Multiset ScoredItem)
      = ⟨1, "b", none⟩ ::ₘ ↑([] : List ScoredItem) ∧
    heapStep 1 [⟨0, "a", none⟩] ⟨0, "c", none⟩ = [⟨0, "a", none⟩] :=
  ⟨(heapStep_policy 2 [⟨0, "a", none⟩] ⟨1, "b", none⟩ (List.sorted_singleton _)).1
      (by decide),
   (((heapStep_policy 1 [⟨0, "a", none⟩] ⟨1, "b", none⟩ (List.sorted_singleton _)).2
      ⟨0, "a", none⟩ [] rfl (by decide)).2.1 (by decide)).1,
   ((heapStep_policy 1 [⟨0, "a", none⟩] ⟨0, "c", none⟩ (List.sorted_singleton _)).2
      ⟨0, "a", none⟩ [] rfl (by decide)).2.2 (by decide)⟩

/-- C1: at every point of the scan the selection holds at most k items —
exactly the `min k i` highest-scoring items among the `i` visited so far
(any visited score it left out is at most any score it holds) — and the
returned results are a choice of `min k n` stored records such that every
stored record left out scores at most every returned one (the k highest
scores up to ties at the boundary). -/
theorem query_topk (qv : List ℚ) (k : ℕ) (vs : List (List Tok))
    (records : List VectorRecord) (rs : List QueryResult)
    (hdec : decodeAll vs = some records)
    (hq : query qv k (.ok ⟨vs, .done⟩) = .ok rs) :
    (∀ i : ℕ,
      (heapRun qv k (records.take i)).length ≤ k ∧
      (heapRun qv k (records.take i)).length = min k (records.take i).length ∧
      ((heapRun qv k (records.take i) : List ScoredItem) : Multiset ScoredItem)
        ≤ ↑(scoredList qv (records.take i)) ∧
      ∀ y ∈ (↑(scoredList qv (records.take i)) : Multiset ScoredItem)
          - ↑(heapRun qv k (records.take i)),
        ∀ x ∈ heapRun qv k (records.take i), y.score ≤ x.score) ∧
    ((↑(rs.map rToScored) : Multiset ScoredItem) ≤ ↑(scoredList qv records) ∧
     rs.length = min k records.length ∧
     ∀ y ∈ (↑(scoredList qv records) : Multiset ScoredItem) - ↑(rs.map rToScored),
       ∀ x ∈ rs.map rToScored, y.score ≤ x.score) := by
  have hcard : ∀ l : List VectorRecord,
      Multiset.card (↑(scoredList qv l) : Multiset ScoredItem) = l.length := by
    intro l
    rw [Multiset.coe_card]
    simp [scoredList]
  constructor
  · intro i
    obtain ⟨hsort, hle, hlen, hbound⟩ := topK_heapRun qv k (records.take i)
    rw [hcard] at hlen
    exact ⟨by omega, hlen, hle, hbound⟩
  · obtain ⟨hp, hloop, hrs⟩ := query_ok_elim hq
    rw [scanLoop_ok_of_decodeAll qv k vs records hdec] at hloop
    injection hloop with hhp
    obtain ⟨hsort, hle, hlen, hbound⟩ := topK_heapRun qv k records
    rw [hcard] at hlen
    have hperm : ((rs.map rToScored : List ScoredItem) : Multiset ScoredItem)
        = ((heapRun qv k records : List ScoredItem) : Multiset ScoredItem) := by
      rw [hrs, hhp]
      exact Multiset.coe_eq_coe.mpr (finalize_perm hp)
    refine ⟨?_, ?_, ?_⟩
    · rw [hperm]; exact hle
    · rw [hrs, ← hhp, finalize_length]; exact hlen
    · intro y hy x hx
      rw [hperm] at hy
      have hx' : x ∈ heapRun qv k records := by
        rw [← Multiset.mem_coe, hperm, Multiset.mem_coe] at hx
        exact hx
      exact hbound y hy x hx'

unseal Rat.mul Rat.add Rat.inv in
theorem query_topk_witness :
    decodeAll wStore = some [wRec1, wRec2] ∧
    query [1] 1 (.ok ⟨wStore, .done⟩) = .ok [⟨"a", 1, none⟩] ∧
    (↑([(⟨"a", 1, none⟩ : QueryResult)].map rToScored) : Multiset ScoredItem)
      ≤ ↑(scoredList [1] [wRec1, wRec2]) :=
  ⟨rfl, rfl,
   (query_topk [1] 1 wStore [wRec1, wRec2] [⟨"a", 1, none⟩] rfl rfl).2.1⟩

/-- C10: query is deterministic — the same query vector, the same k and the
same observable store contents give identical result sequences, including
the order among results with equal scores. -/
theorem query_deterministic (qv1 qv2 : List ℚ) (k1 k2 : ℕ)
    (s1 s2 : Except DbErr ScanStream)
    (hqv : qv1 = qv2) (hk : k1 = k2) (hs : s1 = s2) :
    query qv1 k1 s1 = query qv2 k2 s2 := by
  rw [hqv, hk, hs]

theorem query_deterministic_witness :
    query [1] 1 (.ok ⟨wStore, .done⟩) = query [1] 1 (.ok ⟨wStore, .done⟩) :=
  query_deterministic [1] [1] 1 1 (.ok ⟨wStore, .done⟩) (.ok ⟨wStore, .done⟩)
    rfl rfl rfl

end Smolpuff
